import Mathlib

/-!
Shallow embedding of `fingerprint/fingerprint.go` (package `fingerprint` of the
spectre repository) and verification of its specification claims.

Modelling conventions:
* Go `float64` values are idealised as exact rationals (`ℚ`) wherever the code
  performs only field operations and comparisons; the single transcendental
  (`math.Log` in `noteSteps`) is modelled with `Real.log` over `ℝ`.
* Go's `int(x)` conversion on a float truncates toward zero: `goTrunc` / `goIntQ`.
* Go's `%` on `int` is the truncated remainder: `Int.tmod`.
* Go's `byte(n)` conversion wraps modulo 256: `goByte`.
* A Go `nil` slice result is modelled as `[]` for the candidate selectors and as
  `Option.none` for `transcribe` / `audioKey` (where the code tests `== nil`).
* `sort.Sort` is modelled with `List.insertionSort` on the corresponding `Less`
  relation (Go's sort is deterministic but unspecified on ties; the theorems
  proved below are insensitive to tie order).
* Go ranges a `map` in unspecified order; `getBandedCandidates` therefore takes
  an explicit `mapOrder` argument: any permutation of the key set is an
  admissible iteration order, and anything else falls back to key-insertion
  order so that the function is total.
* The external collaborators (`pcm.Buffer`, the two spectral estimators of the
  `analysis` package, and `crypto/sha1` key hashing) are out of scope per the
  spec and are passed in as abstract parameters.
* The two parallel arrays `freqs`/`Pxx` are consumed through `List.zip`; the
  spectral estimator contract guarantees equal lengths (Go would panic on an
  index out of range otherwise).
-/

namespace Spectre

/-- `REQUIRED_CANDIDATES = 4` — required number of frequency candidates. -/
def REQUIRED_CANDIDATES : ℕ := 4

/-- `LOWER_FREQ_CUTOFF = 0.0` — lowest acceptable frequency. -/
def LOWER_FREQ_CUTOFF : ℚ := 0

/-- `LOWER_POWER_CUTOFF = 100` — power levels below this are ignored. -/
def LOWER_POWER_CUTOFF : ℚ := 100

/-- `SA_PWELCH = 1` (first non-skipped `iota` value). -/
def SA_PWELCH : ℤ := 1

/-- `SA_BESPOKE = 2`. -/
def SA_BESPOKE : ℤ := 2

/-- Note enumeration: `A_NOTE = 0`. -/
def A_NOTE : ℤ := 0

/-- Note enumeration: `AS_NOTE = 1`. -/
def AS_NOTE : ℤ := 1

/-- Note enumeration: `MAX_NOTE = 12`. -/
def MAX_NOTE : ℕ := 12

/-- Go struct `candidate { Freq, Pxx float64 }`. -/
structure candidate where
  Freq : ℚ
  Pxx : ℚ
  deriving DecidableEq, Repr

/-- Go struct `Chroma { Note note; Freq, Strength float64 }` (the `note` enum is
an `int`). The Go zero value has all fields zero. -/
structure Chroma where
  Note : ℤ
  Freq : ℚ
  Strength : ℚ
  deriving DecidableEq, Repr

instance : Inhabited Chroma := ⟨0, 0, 0⟩

/-- Go struct `pcm.Buffer` (external collaborator); only its `Timestamp` field
is read by this package. -/
structure Buffer where
  Timestamp : ℚ
  deriving DecidableEq

/-- Go struct `Fingerprint`. `Key` is a byte slice (bytes as `ℕ < 256`);
`Candidates` is a possibly-nil slice (nil ↦ `[]`); `Transcription` is nil or a
12-entry chroma table. -/
structure Fingerprint where
  Key : List ℕ
  Timestamp : ℚ
  Candidates : List candidate
  Transcription : Option (List Chroma)
  deriving DecidableEq

/-- Go's `int(x)` conversion for a (rational-valued) float: truncation toward
zero. -/
def goIntQ (x : ℚ) : ℤ := if 0 ≤ x then ⌊x⌋ else ⌈x⌉

/-- Go's `byte(n)` conversion for an `int`: wrap modulo 256. -/
def goByte (n : ℤ) : ℕ := (n % 256).toNat

/-- `fuzzyFreq(f) = float64(int(f/10 + 0.5)*10)` — frequency quantizer. -/
def fuzzyFreq (f : ℚ) : ℚ := ((goIntQ (f / 10 + 0.5) * 10 : ℤ) : ℚ)

/-- The admissibility condition used identically in `transcribe`,
`getTopCandidates` and `getBandedCandidates`:
`Pxx[i] > LOWER_POWER_CUTOFF && freqs[i] > LOWER_FREQ_CUTOFF` on a zipped
`(freq, power)` sample. -/
def admissible (x : ℚ × ℚ) : Prop :=
  x.2 > LOWER_POWER_CUTOFF ∧ x.1 > LOWER_FREQ_CUTOFF

instance (x : ℚ × ℚ) : Decidable (admissible x) := by
  unfold admissible; infer_instance

/-- Descending-by-`Pxx` ordering: `sort.Reverse(ByPxx)` sorts so that each
element's `Pxx` is at least the next one's. -/
def pxxGe (a b : candidate) : Prop := b.Pxx ≤ a.Pxx

instance : DecidableRel pxxGe := fun a b =>
  inferInstanceAs (Decidable (b.Pxx ≤ a.Pxx))

instance : IsTotal candidate pxxGe :=
  ⟨fun a b => (le_total b.Pxx a.Pxx).imp id id⟩

instance : IsTrans candidate pxxGe :=
  ⟨fun _ _ _ h1 h2 => le_trans h2 h1⟩

/-- Descending-by-`Freq` ordering: `sort.Reverse(ByFreq)`. -/
def freqGe (a b : candidate) : Prop := b.Freq ≤ a.Freq

instance : DecidableRel freqGe := fun a b =>
  inferInstanceAs (Decidable (b.Freq ≤ a.Freq))

instance : IsTotal candidate freqGe :=
  ⟨fun a b => (le_total b.Freq a.Freq).imp id id⟩

instance : IsTrans candidate freqGe :=
  ⟨fun _ _ _ h1 h2 => le_trans h2 h1⟩

/-- The filtering loop shared by `getTopCandidates`' body: the admissible
samples appended in order as quantized candidates
(`candidates = append(candidates, candidate{Freq: fuzzyFreq(freqs[i]), Pxx: v})`). -/
def admissibleCands (freqs Pxx : List ℚ) : List candidate :=
  (freqs.zip Pxx).filterMap fun x =>
    if admissible x then some ⟨fuzzyFreq x.1, x.2⟩ else none

/-- `getTopCandidates(freqs, Pxx)`: filter admissible samples into quantized
candidates (in order), sort descending by power, return `nil` (modelled `[]`)
if fewer than `REQUIRED_CANDIDATES` remain, else keep the strongest
`REQUIRED_CANDIDATES` and re-sort them descending by frequency. -/
def getTopCandidates (freqs Pxx : List ℚ) : List candidate :=
  if (List.insertionSort pxxGe (admissibleCands freqs Pxx)).length <
      REQUIRED_CANDIDATES then []
  else List.insertionSort freqGe
    ((List.insertionSort pxxGe (admissibleCands freqs Pxx)).take
      REQUIRED_CANDIDATES)

/-- The band classifier local to `getBandedCandidates`:
`int(a/b*4 + 0.5)` with `a = f - LOWER_FREQ_CUTOFF`,
`b = 11025.0/2.0 - LOWER_FREQ_CUTOFF`. -/
def freqBand (f : ℚ) : ℤ :=
  let uLimit : ℚ := 11025 / 2
  let a := f - LOWER_FREQ_CUTOFF
  let b := uLimit - LOWER_FREQ_CUTOFF
  goIntQ (a / b * 4 + 0.5)

/-- State of `getBandedCandidates`' selection loop: the two `map[int]float64`
(reading a missing key yields `0`, as in Go) plus the list of inserted keys in
first-insertion order (both maps always have the same key set, as they are
assigned together). -/
structure BState where
  highScores : ℤ → ℚ
  highPoints : ℤ → ℚ
  keys : List ℤ

/-- One iteration of `getBandedCandidates`' selection loop on a zipped
`(freq, power)` sample (the Go local `fb := freqBand(freqs[i])` is inlined). -/
def bandStep (s : BState) (x : ℚ × ℚ) : BState :=
  if admissible x then
    if x.2 > s.highScores (freqBand x.1) then
      { highScores := fun k => if k = freqBand x.1 then x.2 else s.highScores k
        highPoints := fun k => if k = freqBand x.1 then x.1 else s.highPoints k
        keys := if freqBand x.1 ∈ s.keys then s.keys
                else s.keys ++ [freqBand x.1] }
    else s
  else s

/-- The final loop state of `getBandedCandidates` (both maps start empty). -/
def bandState (freqs Pxx : List ℚ) : BState :=
  (freqs.zip Pxx).foldl bandStep ⟨fun _ => 0, fun _ => 0, []⟩

/-- The key enumeration order of the `for k, v := range highPoints` loop:
`mapOrder` if it is a permutation of the key set (Go's map iteration order is
unspecified), insertion order otherwise. -/
def bandKeys (mapOrder : List ℤ) (freqs Pxx : List ℚ) : List ℤ :=
  if List.Perm mapOrder (bandState freqs Pxx).keys then mapOrder
  else (bandState freqs Pxx).keys

/-- `getBandedCandidates(freqs, Pxx)`: strongest admissible sample per band,
one candidate per non-empty band, sorted descending by frequency. -/
def getBandedCandidates (mapOrder : List ℤ) (freqs Pxx : List ℚ) :
    List candidate :=
  List.insertionSort freqGe
    ((bandKeys mapOrder freqs Pxx).map fun k =>
      ⟨fuzzyFreq ((bandState freqs Pxx).highPoints k),
       (bandState freqs Pxx).highScores k⟩)

/-- The `maxPxx` accumulation in `audioKey`: running maximum of the bin
strengths starting from `0.0`. -/
def maxPxx (t : List Chroma) : ℚ :=
  t.foldl (fun m v => if v.Strength > m then v.Strength else m) 0

/-- `audioKey(t)`: `nil` input gives a `nil` key; otherwise (power-key method,
`optPowerKey = true` in the source) one byte
`byte(int(v.Strength/maxPxx*8.0 + 0.5))` per bin, in order. -/
def audioKey : Option (List Chroma) → Option (List ℕ)
  | none => none
  | some t => some (t.map fun v => goByte (goIntQ (v.Strength / maxPxx t * 8 + 0.5)))

/-- `LOGNA = 0.05776226504666185940` — the source's hard-coded decimal literal
for `ln(2^(1/12))` (NB: the true value is `0.0577622650466621…`; the literal is
kept exactly as written in the source). -/
def LOGNA : ℝ := 0.05776226504666185940

/-- `noteSteps(freq) = math.Log(freq/440.0) / LOGNA` — semitone distance from
the 440 Hz reference. -/
noncomputable def noteSteps (f : ℚ) : ℝ := Real.log ((f : ℝ) / 440) / LOGNA

/-- Go's `int(x)` conversion on a real-valued float: truncation toward zero. -/
noncomputable def goTrunc (x : ℝ) : ℤ := if 0 ≤ x then ⌊x⌋ else ⌈x⌉

/-- `freqNote(freq)`: `n := int(noteSteps(freq) + 0.5) % MAX_NOTE;
if n < 0 { n += MAX_NOTE }; return n`. -/
noncomputable def freqNote (f : ℚ) : ℤ :=
  let n := (goTrunc (noteSteps f + 0.5)).tmod (MAX_NOTE : ℤ)
  if n < 0 then n + (MAX_NOTE : ℤ) else n

/-- State of `transcribe`'s loop: the 12-entry chroma table and the
`chromaCount` commit counter. -/
structure TState where
  table : List Chroma
  chromaCount : ℕ
  deriving Repr

/-- One iteration of `transcribe`'s loop on a zipped `(freq, power)` sample:
`n := freqNote(v); if Pxx[i] > t[n].Strength { if Pxx[i] > LOWER_POWER_CUTOFF
&& v > LOWER_FREQ_CUTOFF { commit } }` (the Go local `n` is inlined). -/
noncomputable def transcribeStep (s : TState) (x : ℚ × ℚ) : TState :=
  if x.2 > (s.table.getD (freqNote x.1).toNat default).Strength then
    if admissible x then
      { table := s.table.set (freqNote x.1).toNat
          ⟨((freqNote x.1).toNat : ℤ), fuzzyFreq x.1, x.2⟩
        chromaCount := s.chromaCount + 1 }
    else s
  else s

/-- The final loop state of `transcribe`, starting from a fresh
`make([]Chroma, MAX_NOTE)` table and `chromaCount = 0`. -/
noncomputable def transcribeState (freqs Pxx : List ℚ) : TState :=
  (freqs.zip Pxx).foldl transcribeStep ⟨List.replicate MAX_NOTE default, 0⟩

/-- `transcribe(freqs, Pxx)`: if no bin was ever committed
(`chromaCount == 0`) the result is `nil`, else the 12-entry table. -/
noncomputable def transcribe (freqs Pxx : List ℚ) : Option (List Chroma) :=
  if (transcribeState freqs Pxx).chromaCount = 0 then none
  else some (transcribeState freqs Pxx).table

/-- The body of `New` parametrised by `optMethod` (the source pins
`optMethod := "transcribe"`; the other `switch` cases are retained verbatim).
`pwelchAnalysis` / `overlapAnalysis` model the external `analysis` package
(each returns `(Pxx, freqs)`), `sha1Key` models the `crypto/sha1` content hash
over the `%e`-formatted candidate frequencies, and `mapOrder` is threaded to
`getBandedCandidates`. `log.Panicf` aborts are modelled as `.error`;
a `nil` `*Fingerprint` is `.ok none`. -/
noncomputable def newWithMethod (mapOrder : List ℤ)
    (pwelchAnalysis overlapAnalysis : Buffer → ℤ → List ℚ × List ℚ)
    (sha1Key : List ℚ → List ℕ) (optMethod : String) (sampleBlock : Buffer)
    (sampleRate : ℤ) (optSpectralAnalyser : ℤ) (optVerbose : Bool) :
    Except String (Option Fingerprint) :=
  let res : Option (List ℚ × List ℚ) :=
    if optSpectralAnalyser = SA_PWELCH then
      some (pwelchAnalysis sampleBlock sampleRate)
    else if optSpectralAnalyser = SA_BESPOKE then
      some (overlapAnalysis sampleBlock sampleRate)
    else none
  match res with
  | none => .error ("Unrecognised spectral analyser")
  | some (Pxx, freqs) =>
    if optMethod = "transcribe" then
      let transcription := transcribe freqs Pxx
      match audioKey transcription with
      | none => .ok none
      | some key => .ok (some
          { Key := key
            Timestamp := sampleBlock.Timestamp
            Candidates := []
            Transcription := transcription })
    else if optMethod = "topfreqs" then
      let cands := getTopCandidates freqs Pxx
      if cands.length < REQUIRED_CANDIDATES then .ok none
      else .ok (some
        { Key := sha1Key (cands.map candidate.Freq)
          Timestamp := sampleBlock.Timestamp
          Candidates := cands
          Transcription := none })
    else if optMethod = "freqbands" then
      let cands := getBandedCandidates mapOrder freqs Pxx
      if cands.length < REQUIRED_CANDIDATES then .ok none
      else .ok (some
        { Key := sha1Key (cands.map candidate.Freq)
          Timestamp := sampleBlock.Timestamp
          Candidates := cands
          Transcription := none })
    else .error ("Fingerprint: Unknown key generaion method")

/-- `New(sampleBlock, sampleRate, optSpectralAnalyser, optVerbose)` — the
fingerprint assembler as shipped, with the hard-coded
`optMethod := "transcribe"`. -/
noncomputable def New (mapOrder : List ℤ)
    (pwelchAnalysis overlapAnalysis : Buffer → ℤ → List ℚ × List ℚ)
    (sha1Key : List ℚ → List ℕ) (sampleBlock : Buffer) (sampleRate : ℤ)
    (optSpectralAnalyser : ℤ) (optVerbose : Bool) :
    Except String (Option Fingerprint) :=
  newWithMethod mapOrder pwelchAnalysis overlapAnalysis sha1Key "transcribe"
    sampleBlock sampleRate optSpectralAnalyser optVerbose

/-! ### Helper lemmas -/

lemma goIntQ_of_nonneg {x : ℚ} (h : 0 ≤ x) : goIntQ x = ⌊x⌋ := if_pos h

lemma LOGNA_pos : (0 : ℝ) < LOGNA := by norm_num [LOGNA]

lemma tmod_twelve_lb (a : ℤ) : -12 < a.tmod 12 := by
  rcases a with m | m
  · have h := Int.tmod_nonneg (a := Int.ofNat m) 12 (Int.ofNat_nonneg m)
    omega
  · have h1 : (Int.negSucc m).tmod 12 = -((m + 1 : ℕ) % 12 : ℕ) := rfl
    have h2 : (m + 1) % 12 < 12 := Nat.mod_lt _ (by norm_num)
    omega

lemma tmod_twelve_ub (a : ℤ) : a.tmod 12 < 12 :=
  Int.tmod_lt_of_pos a (by norm_num)

lemma freqNote_nonneg (f : ℚ) : 0 ≤ freqNote f := by
  unfold freqNote
  have h1 := tmod_twelve_lb (goTrunc (noteSteps f + 0.5))
  simp only [MAX_NOTE, Nat.cast_ofNat]
  split <;> omega

lemma freqNote_lt (f : ℚ) : freqNote f < 12 := by
  unfold freqNote
  have h1 := tmod_twelve_lb (goTrunc (noteSteps f + 0.5))
  have h2 := tmod_twelve_ub (goTrunc (noteSteps f + 0.5))
  simp only [MAX_NOTE, Nat.cast_ofNat]
  split <;> omega

/-! ### C6 — frequency quantizer -/

/-- C6 (amended): for every nonnegative frequency the quantizer computes
`floor(f/10 + 0.5) * 10` (round-half-up to the nearest multiple of 10);
in particular `quantize(445.0) = 450.0` and `quantize(444.9) = 440.0`. -/
theorem C6_fuzzyFreq_round_half_up :
    (∀ f : ℚ, 0 ≤ f → fuzzyFreq f = ((⌊f / 10 + 1/2⌋ * 10 : ℤ) : ℚ)) ∧
    fuzzyFreq 445 = 450 ∧ fuzzyFreq (444.9 : ℚ) = 440 := by
  refine ⟨fun f hf => ?_, ?_, ?_⟩
  · have h0 : (0 : ℚ) ≤ f / 10 + 0.5 := by positivity
    unfold fuzzyFreq
    rw [goIntQ_of_nonneg h0]
    norm_num
  · unfold fuzzyFreq goIntQ
    norm_num
  · unfold fuzzyFreq goIntQ
    norm_num

/-- C6 witness: the general round-half-up equation instantiated at 445 Hz. -/
theorem C6_fuzzyFreq_round_half_up_witness :
    fuzzyFreq 445 = ((⌊(445 : ℚ) / 10 + 1/2⌋ * 10 : ℤ) : ℚ) :=
  C6_fuzzyFreq_round_half_up.1 445 (by norm_num)

/-- C6 counterexample: at frequency `-444.9` the code truncates toward zero
(`int(-43.99) = -43`, giving `-430`) while the claimed formula
`floor(f/10 + 0.5) * 10` gives `-440`; the claim is false for "every
frequency". -/
theorem C6_fuzzyFreq_not_floor_on_negatives :
    fuzzyFreq (-444.9 : ℚ) = -430 ∧
    ((⌊(-444.9 : ℚ) / 10 + 1/2⌋ * 10 : ℤ) : ℚ) = -440 := by
  constructor
  · unfold fuzzyFreq goIntQ
    rw [if_neg (by norm_num)]
    rw [show ((-444.9 : ℚ) / 10 + 0.5) = -43.99 by norm_num]
    rw [show (⌈(-43.99 : ℚ)⌉) = -43 by
      rw [show ((-43 : ℤ)) = -(43 : ℤ) from rfl, Int.ceil_eq_iff] <;> norm_num]
    norm_num
  · norm_num

/-! ### C1 — pitch classifier -/

lemma noteSteps_440 : noteSteps 440 = 0 := by
  unfold noteSteps
  have : ((440 : ℚ) : ℝ) / 440 = 1 := by norm_num
  rw [this, Real.log_one, zero_div]

lemma goTrunc_of_nonneg {x : ℝ} (h : 0 ≤ x) : goTrunc x = ⌊x⌋ := if_pos h

lemma goTrunc_of_neg {x : ℝ} (h : ¬ 0 ≤ x) : goTrunc x = ⌈x⌉ := if_neg h

/-- C1: evaluation of the pitch classifier at the spec's three test
frequencies. `freqNote 440 = A` and `freqNote 466.16 = A#` agree with the
claim, but `freqNote 220 = A#` — not `A` as octave invariance requires —
because Go's `int(x)` truncates `noteSteps(220) + 0.5 ≈ -11.5` toward zero
to `-11` instead of rounding to the nearest integer `-12`. -/
theorem C1_freqNote_misclassifies_220 :
    freqNote 440 = A_NOTE ∧ freqNote (466.16 : ℚ) = AS_NOTE ∧
    freqNote 220 = AS_NOTE ∧ AS_NOTE ≠ A_NOTE := by
  have hL := LOGNA_pos
  refine ⟨?_, ?_, ?_, by norm_num [AS_NOTE, A_NOTE]⟩
  · unfold freqNote
    rw [noteSteps_440, zero_add, goTrunc_of_nonneg (by norm_num)]
    rw [show (⌊(0.5 : ℝ)⌋) = 0 by norm_num]
    simp [MAX_NOTE, Int.zero_tmod, A_NOTE]
  · -- 466.16 Hz: steps = log(5827/5500)/LOGNA lies in [1/2, 3/2)
    have hr : ((466.16 : ℚ) : ℝ) / 440 = 5827 / 5500 := by
      push_cast
      norm_num
    have hsteps : noteSteps (466.16 : ℚ) = Real.log (5827 / 5500) / LOGNA := by
      unfold noteSteps
      rw [hr]
    have hrpos : (0 : ℝ) < 5827 / 5500 := by norm_num
    have hup : Real.log (5827 / 5500) ≤ 327 / 5500 := by
      have h := Real.log_le_sub_one_of_pos hrpos
      linarith
    have hlo : (327 / 5827 : ℝ) ≤ Real.log (5827 / 5500) := by
      have hinv : Real.log ((5827 / 5500 : ℝ)⁻¹) ≤ (5827 / 5500 : ℝ)⁻¹ - 1 :=
        Real.log_le_sub_one_of_pos (by norm_num)
      rw [Real.log_inv] at hinv
      have he : ((5827 / 5500 : ℝ)⁻¹) = 5500 / 5827 := by norm_num
      rw [he] at hinv
      linarith
    have hqlo : (1 / 2 : ℝ) ≤ Real.log (5827 / 5500) / LOGNA := by
      rw [le_div_iff₀ hL]
      calc (1 / 2 : ℝ) * LOGNA ≤ 327 / 5827 := by norm_num [LOGNA]
        _ ≤ _ := hlo
    have hqhi : Real.log (5827 / 5500) / LOGNA < 3 / 2 := by
      rw [div_lt_iff₀ hL]
      calc Real.log (5827 / 5500) ≤ 327 / 5500 := hup
        _ < 3 / 2 * LOGNA := by norm_num [LOGNA]
    unfold freqNote
    rw [hsteps, goTrunc_of_nonneg (by linarith [hqlo])]
    rw [show (⌊Real.log (5827 / 5500) / LOGNA + 0.5⌋) = 1 by
      rw [Int.floor_eq_iff]
      push_cast
      constructor <;> linarith]
    rw [show ((1 : ℤ).tmod ((MAX_NOTE : ℕ) : ℤ)) = 1 by decide]
    norm_num [AS_NOTE]
  · -- 220 Hz: steps = -log 2 / LOGNA lies in (-12.5, -11.5]
    have hr : ((220 : ℚ) : ℝ) / 440 = (2 : ℝ)⁻¹ := by norm_num
    have hsteps : noteSteps 220 = -(Real.log 2 / LOGNA) := by
      unfold noteSteps
      rw [hr, Real.log_inv, neg_div]
    have hlog2_lo := Real.log_two_gt_d9
    have hlog2_hi := Real.log_two_lt_d9
    have hqlo : (23 / 2 : ℝ) < Real.log 2 / LOGNA := by
      rw [lt_div_iff₀ hL]
      calc (23 / 2 : ℝ) * LOGNA ≤ 0.6931471803 := by norm_num [LOGNA]
        _ < Real.log 2 := hlog2_lo
    have hqhi : Real.log 2 / LOGNA < 25 / 2 := by
      rw [div_lt_iff₀ hL]
      calc Real.log 2 < 0.6931471808 := hlog2_hi
        _ < 25 / 2 * LOGNA := by norm_num [LOGNA]
    unfold freqNote
    rw [hsteps, goTrunc_of_neg (by push_cast; linarith)]
    rw [show (⌈-(Real.log 2 / LOGNA) + 0.5⌉) = -11 by
      rw [Int.ceil_eq_iff]
      push_cast
      constructor <;> linarith]
    rw [show ((-11 : ℤ).tmod ((MAX_NOTE : ℕ) : ℤ)) = -11 by decide]
    norm_num [AS_NOTE, MAX_NOTE]

/-! ### C4 — silent frames produce no transcription and no fingerprint -/

lemma transcribeStep_id_of_low_power {s : TState} {x : ℚ × ℚ}
    (h : x.2 ≤ LOWER_POWER_CUTOFF) : transcribeStep s x = s := by
  unfold transcribeStep
  have hadm : ¬ admissible x := fun hc => absurd hc.1 (not_lt.mpr h)
  simp only [if_neg hadm, ite_self]

lemma transcribeFold_id_of_low_power :
    ∀ (l : List (ℚ × ℚ)) (s : TState), (∀ x ∈ l, x.2 ≤ LOWER_POWER_CUTOFF) →
      l.foldl transcribeStep s = s := by
  intro l
  induction l with
  | nil => intro s _; rfl
  | cons x xs ih =>
    intro s h
    rw [List.foldl_cons, transcribeStep_id_of_low_power (h x (by simp))]
    exact ih s fun y hy => h y (by simp [hy])

/-- C4: if every sample's power is at or below the power floor then
`transcribe` returns `nil`, and — on the shipped transcription pipeline —
`New` returns no fingerprint (`nil`), for either spectral estimator. -/
theorem C4_silent_frame_no_fingerprint :
    (∀ freqs Pxx : List ℚ, (∀ p ∈ Pxx, p ≤ LOWER_POWER_CUTOFF) →
      transcribe freqs Pxx = none) ∧
    (∀ (mapOrder : List ℤ) (pw ov : Buffer → ℤ → List ℚ × List ℚ)
        (sk : List ℚ → List ℕ) (buf : Buffer) (rate : ℤ) (vb : Bool),
      ((∀ p ∈ (pw buf rate).1, p ≤ LOWER_POWER_CUTOFF) →
        New mapOrder pw ov sk buf rate SA_PWELCH vb = .ok none) ∧
      ((∀ p ∈ (ov buf rate).1, p ≤ LOWER_POWER_CUTOFF) →
        New mapOrder pw ov sk buf rate SA_BESPOKE vb = .ok none)) := by
  have htr : ∀ freqs Pxx : List ℚ, (∀ p ∈ Pxx, p ≤ LOWER_POWER_CUTOFF) →
      transcribe freqs Pxx = none := by
    intro freqs Pxx h
    unfold transcribe transcribeState
    rw [transcribeFold_id_of_low_power _ _
      fun x hx => h x.2 (List.of_mem_zip hx).2]
    rfl
  refine ⟨htr, fun mapOrder pw ov sk buf rate vb => ⟨fun h => ?_, fun h => ?_⟩⟩
  · rcases hp : pw buf rate with ⟨Pxx, freqs⟩
    rw [hp] at h
    simp [New, newWithMethod, hp, htr freqs Pxx h, audioKey]
  · rcases hp : ov buf rate with ⟨Pxx, freqs⟩
    rw [hp] at h
    simp [New, newWithMethod, SA_BESPOKE, SA_PWELCH, hp, htr freqs Pxx h,
      audioKey]

/-- C4 witness: a concrete one-sample frame at power 50 (below the floor of
100) yields no transcription and no fingerprint. -/
theorem C4_silent_frame_no_fingerprint_witness :
    transcribe [440] [50] = none ∧
    New [] (fun _ _ => ([50], [440])) (fun _ _ => ([], [])) (fun _ => [])
      ⟨0⟩ 11025 SA_PWELCH false = .ok none :=
  ⟨C4_silent_frame_no_fingerprint.1 [440] [50]
    (by norm_num [LOWER_POWER_CUTOFF]),
   (C4_silent_frame_no_fingerprint.2 [] _ _ _ ⟨0⟩ 11025 false).1
    (by norm_num [LOWER_POWER_CUTOFF])⟩

/-! ### C7 — strictly-greater replacement; equal-power ties keep the first -/

lemma transcribeStep_table_length (s : TState) (x : ℚ × ℚ) :
    (transcribeStep s x).table.length = s.table.length := by
  unfold transcribeStep
  split
  · split
    · simp [List.length_set]
    · rfl
  · rfl

lemma transcribeFold_table_length :
    ∀ (l : List (ℚ × ℚ)) (s : TState),
      (l.foldl transcribeStep s).table.length = s.table.length := by
  intro l
  induction l with
  | nil => intro s; rfl
  | cons x xs ih =>
    intro s
    rw [List.foldl_cons, ih, transcribeStep_table_length]

lemma transcribeStep_strength_mono (s : TState) (x : ℚ × ℚ) (n : ℕ) :
    (s.table.getD n default).Strength ≤
      ((transcribeStep s x).table.getD n default).Strength := by
  unfold transcribeStep
  split
  · split
    · rename_i houter _
      rw [List.getD_eq_getElem?_getD] at houter
      simp only [List.getD_eq_getElem?_getD, List.getElem?_set]
      by_cases hn : (freqNote x.1).toNat = n
      · rw [if_pos hn]
        by_cases hlt : (freqNote x.1).toNat < s.table.length
        · rw [if_pos hlt]
          simp only [Option.getD_some]
          subst hn
          exact le_of_lt houter
        · rw [if_neg hlt]
          subst hn
          rw [List.getElem?_eq_none (not_lt.mp hlt)]
      · rw [if_neg hn]
    · exact le_refl _
  · exact le_refl _

lemma transcribeFold_strength_mono :
    ∀ (l : List (ℚ × ℚ)) (s : TState) (n : ℕ),
      (s.table.getD n default).Strength ≤
        ((l.foldl transcribeStep s).table.getD n default).Strength := by
  intro l
  induction l with
  | nil => intro s n; exact le_refl _
  | cons x xs ih =>
    intro s n
    exact le_trans (transcribeStep_strength_mono s x n) (ih _ n)

/-- After processing sample `(f, p)`, either `p` failed the power floor or the
bin of `f`'s pitch class records a strength of at least `p`. -/
lemma transcribeStep_after_self (s : TState) (f p : ℚ)
    (hlen : s.table.length = 12) (hf : 0 < f) :
    p ≤ LOWER_POWER_CUTOFF ∨
      p ≤ (((transcribeStep s (f, p)).table.getD (freqNote f).toNat
        default).Strength) := by
  unfold transcribeStep
  by_cases houter : p > ((s.table.getD (freqNote f).toNat default).Strength)
  · by_cases hadm : admissible (f, p)
    · right
      simp only [if_pos houter, if_pos hadm]
      have hn : (freqNote f).toNat < s.table.length := by
        rw [hlen]
        have h1 := freqNote_nonneg f
        have h2 := freqNote_lt f
        omega
      simp only [List.getD_eq_getElem?_getD, List.getElem?_set, if_pos rfl,
        if_pos hn, Option.getD_some]
      exact le_refl p
    · left
      rcases not_and_or.mp hadm with hp | hfr
      · exact not_lt.mp hp
      · exact absurd hf (by simpa [LOWER_FREQ_CUTOFF] using hfr)
  · right
    simp only [if_neg houter]
    exact not_lt.mp houter

/-- A sample whose power does not exceed its bin's recorded strength (or fails
the power floor while the bin is weaker) never modifies the state. -/
lemma transcribeStep_skip (s : TState) (f p : ℚ)
    (h : p ≤ LOWER_POWER_CUTOFF ∨
      p ≤ ((s.table.getD (freqNote f).toNat default).Strength)) :
    transcribeStep s (f, p) = s := by
  unfold transcribeStep
  by_cases houter : p > ((s.table.getD (freqNote f).toNat default).Strength)
  · rcases h with hp | hs
    · rw [if_pos houter, if_neg]
      intro hadm
      exact absurd hadm.1 (not_lt.mpr hp)
    · exact absurd houter (not_lt.mpr hs)
  · rw [if_neg houter]

/-- C7: two samples of exactly equal power in the same pitch class — the
second never alters the transcription, wherever the two occur in the frame
(`freqs1/Pxx1` before the first, `freqs2/Pxx2` between them, `freqs3/Pxx3`
after): dropping the later duplicate gives the identical result, so the
first-seen sample wins and the bin keeps its frequency and strength. -/
theorem C7_equal_power_first_seen_wins
    (freqs1 freqs2 freqs3 Pxx1 Pxx2 Pxx3 : List ℚ) (f1 f2 p : ℚ)
    (hl1 : freqs1.length = Pxx1.length) (hl2 : freqs2.length = Pxx2.length)
    (hnote : freqNote f1 = freqNote f2) (hf1 : 0 < f1) :
    transcribe (freqs1 ++ f1 :: (freqs2 ++ f2 :: freqs3))
               (Pxx1 ++ p :: (Pxx2 ++ p :: Pxx3)) =
    transcribe (freqs1 ++ f1 :: (freqs2 ++ freqs3))
               (Pxx1 ++ p :: (Pxx2 ++ Pxx3)) := by
  unfold transcribe transcribeState
  rw [List.zip_append hl1, List.zip_append hl1, List.zip_cons_cons,
    List.zip_cons_cons, List.zip_append hl2, List.zip_append hl2,
    List.zip_cons_cons, List.foldl_append, List.foldl_append,
    List.foldl_cons, List.foldl_cons, List.foldl_append, List.foldl_append,
    List.foldl_cons]
  set sA := (freqs1.zip Pxx1).foldl transcribeStep
    (⟨List.replicate MAX_NOTE default, 0⟩ : TState) with hsA
  set s1 := transcribeStep sA (f1, p) with hs1
  set sB := (freqs2.zip Pxx2).foldl transcribeStep s1 with hsB
  have hlenA : sA.table.length = 12 := by
    rw [hsA, transcribeFold_table_length]
    simp [MAX_NOTE]
  have h1 : p ≤ LOWER_POWER_CUTOFF ∨
      p ≤ ((s1.table.getD (freqNote f1).toNat default).Strength) := by
    rw [hs1]
    exact transcribeStep_after_self sA f1 p hlenA hf1
  have hB : p ≤ LOWER_POWER_CUTOFF ∨
      p ≤ ((sB.table.getD (freqNote f1).toNat default).Strength) := by
    rcases h1 with hp | hs
    · exact Or.inl hp
    · exact Or.inr (le_trans hs (transcribeFold_strength_mono _ s1 _))
  rw [hnote] at hB
  rw [transcribeStep_skip sB f2 p hB]

/-- C7 witness: the duplicated equal-power sample `(440 Hz, 200)` is dropped
without effect. -/
theorem C7_equal_power_first_seen_wins_witness :
    transcribe [440, 440] [200, 200] = transcribe [440] [200] :=
  C7_equal_power_first_seen_wins [] [] [] [] [] [] 440 440 200
    rfl rfl rfl (by norm_num)

/-! ### C3 — the power-key generator -/

lemma maxFold_ge_acc (t : List Chroma) :
    ∀ a : ℚ, a ≤ t.foldl (fun m v => if v.Strength > m then v.Strength else m) a := by
  induction t with
  | nil => intro a; exact le_refl a
  | cons c t ih =>
    intro a
    rw [List.foldl_cons]
    refine le_trans ?_ (ih _)
    split
    · rename_i hgt
      exact le_of_lt hgt
    · exact le_refl a

lemma maxFold_ge_mem (t : List Chroma) :
    ∀ (a : ℚ) (c : Chroma), c ∈ t →
      c.Strength ≤ t.foldl (fun m v => if v.Strength > m then v.Strength else m) a := by
  induction t with
  | nil => intro a c hc; exact absurd hc (List.not_mem_nil c)
  | cons x t ih =>
    intro a c hc
    rw [List.foldl_cons]
    rcases List.mem_cons.mp hc with rfl | hc
    · refine le_trans ?_ (maxFold_ge_acc t _)
      split
      · exact le_refl _
      · rename_i hng
        exact not_lt.mp hng
    · exact ih _ c hc

lemma maxFold_attained (t : List Chroma) :
    ∀ a : ℚ, t.foldl (fun m v => if v.Strength > m then v.Strength else m) a = a ∨
      ∃ c ∈ t, t.foldl (fun m v => if v.Strength > m then v.Strength else m) a
        = c.Strength := by
  induction t with
  | nil => intro a; exact Or.inl rfl
  | cons x t ih =>
    intro a
    rw [List.foldl_cons]
    rcases ih (if x.Strength > a then x.Strength else a) with h | ⟨c, hc, h⟩
    · rw [h]
      split
      · exact Or.inr ⟨x, List.mem_cons_self x t, rfl⟩
      · exact Or.inl rfl
    · exact Or.inr ⟨c, List.mem_cons_of_mem x hc, h⟩

lemma maxPxx_ge {t : List Chroma} {c : Chroma} (hc : c ∈ t) :
    c.Strength ≤ maxPxx t :=
  maxFold_ge_mem t 0 c hc

lemma maxPxx_attained {t : List Chroma} (h : 0 < maxPxx t) :
    ∃ c ∈ t, c.Strength = maxPxx t := by
  rcases maxFold_attained t 0 with h0 | ⟨c, hc, hs⟩
  · exfalso
    unfold maxPxx at h
    rw [h0] at h
    exact lt_irrefl 0 h
  · refine ⟨c, hc, ?_⟩
    unfold maxPxx
    exact hs.symm

/-- C3: for a 12-bin transcription with nonnegative bin strengths (as the data
model guarantees) and positive maximum strength, the power key is exactly one
byte per bin in order, each `round-half-up(strength/max_strength * 8)`, hence
12 bytes all in `[0, 8]`, and a bin attaining the maximum strength gets byte
value `8`. -/
theorem C3_power_key (t : List Chroma) (hlen : t.length = 12)
    (hnn : ∀ c ∈ t, 0 ≤ c.Strength) (hmax : 0 < maxPxx t) :
    audioKey (some t) =
      some (t.map fun v => (⌊v.Strength / maxPxx t * 8 + 1/2⌋).toNat) ∧
    (∃ k, audioKey (some t) = some k ∧ k.length = 12 ∧ ∀ b ∈ k, b ≤ 8) ∧
    ∃ c ∈ t, c.Strength = maxPxx t ∧
      (⌊c.Strength / maxPxx t * 8 + 1/2⌋).toNat = 8 := by
  have h05 : (0.5 : ℚ) = 1 / 2 := by norm_num
  have hpt : ∀ v ∈ t,
      goByte (goIntQ (v.Strength / maxPxx t * 8 + 0.5)) =
        (⌊v.Strength / maxPxx t * 8 + 1/2⌋).toNat ∧
      (⌊v.Strength / maxPxx t * 8 + 1/2⌋).toNat ≤ 8 := by
    intro v hv
    have hdiv : (0 : ℚ) ≤ v.Strength / maxPxx t :=
      div_nonneg (hnn v hv) hmax.le
    have h0 : (0 : ℚ) ≤ v.Strength / maxPxx t * 8 + 1 / 2 := by linarith
    have hle : v.Strength / maxPxx t ≤ 1 :=
      (div_le_one hmax).mpr (maxPxx_ge hv)
    have hub : v.Strength / maxPxx t * 8 + 1 / 2 ≤ 17 / 2 := by linarith
    have hfl : ⌊v.Strength / maxPxx t * 8 + 1 / 2⌋ ≤ 8 := by
      have h8 := Int.floor_le_floor hub
      rw [show (⌊(17 / 2 : ℚ)⌋) = 8 by norm_num] at h8
      exact h8
    have hfl0 : 0 ≤ ⌊v.Strength / maxPxx t * 8 + 1 / 2⌋ :=
      Int.floor_nonneg.mpr h0
    refine ⟨?_, by omega⟩
    unfold goByte goIntQ
    rw [h05, if_pos h0, Int.emod_eq_of_lt hfl0 (by omega)]
  refine ⟨?_, ?_, ?_⟩
  · simp only [audioKey]
    rw [List.map_congr_left fun v hv => (hpt v hv).1]
  · refine ⟨t.map fun v => (⌊v.Strength / maxPxx t * 8 + 1/2⌋).toNat, ?_, ?_, ?_⟩
    · simp only [audioKey]
      rw [List.map_congr_left fun v hv => (hpt v hv).1]
    · rw [List.length_map, hlen]
    · intro b hb
      rcases List.mem_map.mp hb with ⟨v, hv, rfl⟩
      exact (hpt v hv).2
  · rcases maxPxx_attained hmax with ⟨c, hc, hs⟩
    refine ⟨c, hc, hs, ?_⟩
    rw [hs, div_self (ne_of_gt hmax),
      show ((1 : ℚ) * 8 + 1/2) = 17/2 by norm_num,
      show (⌊(17/2 : ℚ)⌋) = 8 by norm_num]
    rfl

/-- C3 witness: the transcription with bin strengths
`[0, 8, 4, 0, 0, 0, 0, 0, 0, 0, 0, 0]` yields the key
`[0, 8, 4, 0, 0, 0, 0, 0, 0, 0, 0, 0]`, 12 bytes all in `[0, 8]`. -/
theorem C3_power_key_witness :
    audioKey (some [⟨0, 0, 0⟩, ⟨1, 0, 8⟩, ⟨2, 0, 4⟩, ⟨3, 0, 0⟩, ⟨4, 0, 0⟩,
        ⟨5, 0, 0⟩, ⟨6, 0, 0⟩, ⟨7, 0, 0⟩, ⟨8, 0, 0⟩, ⟨9, 0, 0⟩, ⟨10, 0, 0⟩,
        ⟨11, 0, 0⟩]) =
      some [0, 8, 4, 0, 0, 0, 0, 0, 0, 0, 0, 0] ∧
    (∃ k, audioKey (some [⟨0, 0, 0⟩, ⟨1, 0, 8⟩, ⟨2, 0, 4⟩, ⟨3, 0, 0⟩,
        ⟨4, 0, 0⟩, ⟨5, 0, 0⟩, ⟨6, 0, 0⟩, ⟨7, 0, 0⟩, ⟨8, 0, 0⟩, ⟨9, 0, 0⟩,
        ⟨10, 0, 0⟩, ⟨11, 0, 0⟩]) = some k ∧ k.length = 12 ∧ ∀ b ∈ k, b ≤ 8) := by
  constructor
  · norm_num [audioKey, maxPxx, goByte, goIntQ]
    decide
  · refine (C3_power_key _ (by norm_num) ?_ (by norm_num [maxPxx])).2.1
    intro c hc
    simp only [List.mem_cons, List.not_mem_nil, or_false] at hc
    rcases hc with rfl | rfl | rfl | rfl | rfl | rfl | rfl | rfl | rfl | rfl
      | rfl | rfl <;> norm_num

/-! ### C5 — the top-N selector -/

/-- C5: with fewer than `REQUIRED_CANDIDATES` admissible samples the top-N
selector returns `nil`; with at least that many it returns exactly
`REQUIRED_CANDIDATES` candidates, sorted descending by frequency, and they are
the highest-power admissible ones: the admissible set splits into the kept
part and a dropped part every element of which is no stronger than any kept
candidate. -/
theorem C5_top_selector (freqs Pxx : List ℚ) :
    ((admissibleCands freqs Pxx).length < REQUIRED_CANDIDATES →
      getTopCandidates freqs Pxx = []) ∧
    (REQUIRED_CANDIDATES ≤ (admissibleCands freqs Pxx).length →
      (getTopCandidates freqs Pxx).length = REQUIRED_CANDIDATES ∧
      List.Sorted freqGe (getTopCandidates freqs Pxx) ∧
      ∃ kept dropped : List candidate,
        (admissibleCands freqs Pxx).Perm (kept ++ dropped) ∧
        (getTopCandidates freqs Pxx).Perm kept ∧
        kept.length = REQUIRED_CANDIDATES ∧
        ∀ c ∈ kept, ∀ d ∈ dropped, d.Pxx ≤ c.Pxx) := by
  have hlen : (List.insertionSort pxxGe (admissibleCands freqs Pxx)).length =
      (admissibleCands freqs Pxx).length := List.length_insertionSort _ _
  constructor
  · intro h
    unfold getTopCandidates
    rw [if_pos (by rw [hlen]; omega)]
  · intro h
    unfold getTopCandidates
    rw [if_neg (by rw [hlen]; omega)]
    have htk : ((List.insertionSort pxxGe (admissibleCands freqs Pxx)).take
        REQUIRED_CANDIDATES).length = REQUIRED_CANDIDATES := by
      rw [List.length_take, hlen]
      omega
    refine ⟨?_, List.sorted_insertionSort freqGe _,
      (List.insertionSort pxxGe (admissibleCands freqs Pxx)).take
        REQUIRED_CANDIDATES,
      (List.insertionSort pxxGe (admissibleCands freqs Pxx)).drop
        REQUIRED_CANDIDATES,
      ?_, List.perm_insertionSort freqGe _, htk, ?_⟩
    · rw [List.length_insertionSort, htk]
    · rw [List.take_append_drop]
      exact (List.perm_insertionSort pxxGe _).symm
    · have hs : List.Sorted pxxGe
          (List.insertionSort pxxGe (admissibleCands freqs Pxx)) :=
        List.sorted_insertionSort pxxGe _
      have hp' : List.Pairwise pxxGe
          ((List.insertionSort pxxGe (admissibleCands freqs Pxx)).take
              REQUIRED_CANDIDATES ++
            (List.insertionSort pxxGe (admissibleCands freqs Pxx)).drop
              REQUIRED_CANDIDATES) := by
        rw [List.take_append_drop]
        exact hs
      have hp := (List.pairwise_append.mp hp').2.2
      intro c hc d hd
      exact hp c hc d hd

/-- C5 witness: one admissible sample gives `nil`; five admissible samples
give exactly 4 candidates sorted descending by frequency. -/
theorem C5_top_selector_witness :
    getTopCandidates [440] [200] = [] ∧
    (getTopCandidates [100, 1000, 2500, 4000, 5000]
      [200, 300, 400, 500, 600]).length = REQUIRED_CANDIDATES ∧
    List.Sorted freqGe (getTopCandidates [100, 1000, 2500, 4000, 5000]
      [200, 300, 400, 500, 600]) := by
  refine ⟨(C5_top_selector [440] [200]).1 ?_, ?_⟩
  · norm_num [admissibleCands, admissible, LOWER_POWER_CUTOFF,
      LOWER_FREQ_CUTOFF, REQUIRED_CANDIDATES, List.filterMap_cons]
  · have h := (C5_top_selector [100, 1000, 2500, 4000, 5000]
      [200, 300, 400, 500, 600]).2 (by
        norm_num [admissibleCands, admissible, LOWER_POWER_CUTOFF,
          LOWER_FREQ_CUTOFF, REQUIRED_CANDIDATES, List.filterMap_cons])
    exact ⟨h.1, h.2.1⟩

/-! ### C2 — the banded selector -/

lemma freqBand_eq (f : ℚ) : freqBand f = goIntQ (f / (11025 / 2) * 4 + 0.5) := by
  unfold freqBand
  norm_num [LOWER_FREQ_CUTOFF]

lemma freqBand_bound {f : ℚ} (h0 : 0 < f) (hn : f ≤ 11025 / 2) :
    0 ≤ freqBand f ∧ freqBand f ≤ 4 := by
  rw [freqBand_eq]
  have hdiv : (0 : ℚ) < f / (11025 / 2) := div_pos h0 (by norm_num)
  have harg0 : (0 : ℚ) ≤ f / (11025 / 2) * 4 + 0.5 := by nlinarith
  have hdle : f / (11025 / 2) ≤ 1 := (div_le_one (by norm_num)).mpr hn
  have harg1 : f / (11025 / 2) * 4 + 0.5 ≤ 9 / 2 := by nlinarith
  unfold goIntQ
  rw [if_pos harg0]
  refine ⟨Int.floor_nonneg.mpr harg0, ?_⟩
  have h4 := Int.floor_le_floor harg1
  rw [show (⌊(9 / 2 : ℚ)⌋) = 4 by norm_num] at h4
  exact h4

lemma bandStep_keys_nodup (s : BState) (x : ℚ × ℚ) (h : s.keys.Nodup) :
    (bandStep s x).keys.Nodup := by
  unfold bandStep
  split
  · split
    · show (if freqBand x.1 ∈ s.keys then s.keys
        else s.keys ++ [freqBand x.1]).Nodup
      split
      · exact h
      · rename_i hnm
        refine List.Nodup.append h (List.nodup_singleton _) ?_
        intro a ha hb
        rw [List.mem_singleton] at hb
        subst hb
        exact hnm ha
    · exact h
  · exact h

lemma bandFold_keys_nodup :
    ∀ (l : List (ℚ × ℚ)) (s : BState), s.keys.Nodup →
      ((l.foldl bandStep s).keys).Nodup := by
  intro l
  induction l with
  | nil => intro s h; exact h
  | cons y ys ih =>
    intro s h
    rw [List.foldl_cons]
    exact ih _ (bandStep_keys_nodup s y h)

lemma bandStep_keys_bound (s : BState) (x : ℚ × ℚ)
    (hx : x.1 ≤ 11025 / 2) (h : ∀ k ∈ s.keys, 0 ≤ k ∧ k ≤ 4) :
    ∀ k ∈ (bandStep s x).keys, 0 ≤ k ∧ k ≤ 4 := by
  unfold bandStep
  split
  · rename_i hadm
    split
    · show ∀ k ∈ (if freqBand x.1 ∈ s.keys then s.keys
        else s.keys ++ [freqBand x.1]), 0 ≤ k ∧ k ≤ 4
      have hfb : 0 ≤ freqBand x.1 ∧ freqBand x.1 ≤ 4 :=
        freqBand_bound (by simpa [LOWER_FREQ_CUTOFF] using hadm.2) hx
      split
      · exact h
      · intro k hk
        rcases List.mem_append.mp hk with hk | hk
        · exact h k hk
        · rw [List.mem_singleton] at hk
          subst hk
          exact hfb
    · exact h
  · exact h

lemma bandFold_keys_bound :
    ∀ (l : List (ℚ × ℚ)) (s : BState), (∀ x ∈ l, x.1 ≤ 11025 / 2) →
      (∀ k ∈ s.keys, 0 ≤ k ∧ k ≤ 4) →
      ∀ k ∈ (l.foldl bandStep s).keys, 0 ≤ k ∧ k ≤ 4 := by
  intro l
  induction l with
  | nil => intro s _ h; exact h
  | cons y ys ih =>
    intro s hl h
    rw [List.foldl_cons]
    exact ih _ (fun x hx => hl x (List.mem_cons_of_mem y hx))
      (bandStep_keys_bound s y (hl y (List.mem_cons_self y ys)) h)

lemma bandStep_scores_mono (s : BState) (x : ℚ × ℚ) (k : ℤ) :
    s.highScores k ≤ (bandStep s x).highScores k := by
  unfold bandStep
  split
  · split
    · rename_i hgt
      show s.highScores k ≤ if k = freqBand x.1 then x.2 else s.highScores k
      split
      · rename_i heq
        rw [heq]
        exact le_of_lt hgt
      · exact le_refl _
    · exact le_refl _
  · exact le_refl _

lemma bandFold_scores_mono :
    ∀ (l : List (ℚ × ℚ)) (s : BState) (k : ℤ),
      s.highScores k ≤ (l.foldl bandStep s).highScores k := by
  intro l
  induction l with
  | nil => intro s k; exact le_refl _
  | cons y ys ih =>
    intro s k
    rw [List.foldl_cons]
    exact le_trans (bandStep_scores_mono s y k) (ih _ k)

lemma bandFold_le_scores :
    ∀ (l : List (ℚ × ℚ)) (s : BState) (x : ℚ × ℚ), x ∈ l → admissible x →
      x.2 ≤ (l.foldl bandStep s).highScores (freqBand x.1) := by
  intro l
  induction l with
  | nil => intro s x hx; exact absurd hx (List.not_mem_nil x)
  | cons y ys ih =>
    intro s x hx hadm
    rw [List.foldl_cons]
    rcases List.mem_cons.mp hx with rfl | hx
    · refine le_trans ?_ (bandFold_scores_mono ys _ _)
      unfold bandStep
      rw [if_pos hadm]
      split
      · show x.2 ≤ if freqBand x.1 = freqBand x.1 then x.2 else _
        rw [if_pos rfl]
      · rename_i hng
        exact not_lt.mp hng
    · exact ih _ x hx hadm

/-- Every key present in the final state was committed by some admissible
sample of the processed list, and the two maps record exactly that (last
winning) sample's raw frequency and power. -/
lemma bandFold_keys_from_sample :
    ∀ (l : List (ℚ × ℚ)) (s : BState),
      ∀ k ∈ (l.foldl bandStep s).keys,
        (∃ x ∈ l, admissible x ∧ freqBand x.1 = k ∧
          (l.foldl bandStep s).highPoints k = x.1 ∧
          (l.foldl bandStep s).highScores k = x.2) ∨
        (k ∈ s.keys ∧ (l.foldl bandStep s).highPoints k = s.highPoints k ∧
          (l.foldl bandStep s).highScores k = s.highScores k) := by
  intro l
  induction l with
  | nil =>
    intro s k hk
    exact Or.inr ⟨hk, rfl, rfl⟩
  | cons y ys ih =>
    intro s k hk
    rw [List.foldl_cons] at hk ⊢
    rcases ih (bandStep s y) k hk with ⟨x, hx, hrest⟩ | ⟨hks, hpts, hscs⟩
    · exact Or.inl ⟨x, List.mem_cons_of_mem y hx, hrest⟩
    · -- analyse the single step
      by_cases hadm : admissible y
      · by_cases hgt : y.2 > s.highScores (freqBand y.1)
        · have hkeys' : (bandStep s y).keys =
              if freqBand y.1 ∈ s.keys then s.keys
              else s.keys ++ [freqBand y.1] := by
            unfold bandStep
            rw [if_pos hadm, if_pos hgt]
          by_cases heq : k = freqBand y.1
          · have hspts : (bandStep s y).highPoints k = y.1 := by
              unfold bandStep
              rw [if_pos hadm, if_pos hgt]
              show (if k = freqBand y.1 then y.1 else s.highPoints k) = y.1
              rw [if_pos heq]
            have hsscs : (bandStep s y).highScores k = y.2 := by
              unfold bandStep
              rw [if_pos hadm, if_pos hgt]
              show (if k = freqBand y.1 then y.2 else s.highScores k) = y.2
              rw [if_pos heq]
            exact Or.inl ⟨y, List.mem_cons_self y ys, hadm, heq.symm,
              by rw [hpts, hspts], by rw [hscs, hsscs]⟩
          · have hspts : (bandStep s y).highPoints k = s.highPoints k := by
              unfold bandStep
              rw [if_pos hadm, if_pos hgt]
              show (if k = freqBand y.1 then y.1 else s.highPoints k) = _
              rw [if_neg heq]
            have hsscs : (bandStep s y).highScores k = s.highScores k := by
              unfold bandStep
              rw [if_pos hadm, if_pos hgt]
              show (if k = freqBand y.1 then y.2 else s.highScores k) = _
              rw [if_neg heq]
            refine Or.inr ⟨?_, by rw [hpts, hspts], by rw [hscs, hsscs]⟩
            rw [hkeys'] at hks
            rcases (em (freqBand y.1 ∈ s.keys)) with hm | hm
            · rwa [if_pos hm] at hks
            · rw [if_neg hm] at hks
              rcases List.mem_append.mp hks with h' | h'
              · exact h'
              · rw [List.mem_singleton] at h'
                exact absurd h' heq
        · have hstep : bandStep s y = s := by
            unfold bandStep
            rw [if_pos hadm, if_neg hgt]
          rw [hstep] at hks hpts hscs ⊢
          exact Or.inr ⟨hks, hpts, hscs⟩
      · have hstep : bandStep s y = s := by
          unfold bandStep
          rw [if_neg hadm]
        rw [hstep] at hks hpts hscs ⊢
        exact Or.inr ⟨hks, hpts, hscs⟩

lemma bandKeys_perm (mapOrder : List ℤ) (freqs Pxx : List ℚ) :
    (bandKeys mapOrder freqs Pxx).Perm (bandState freqs Pxx).keys := by
  unfold bandKeys
  split
  · rename_i hp
    exact hp
  · exact List.Perm.refl _

lemma nodup_bounded_length_le_five {ks : List ℤ} (hnd : ks.Nodup)
    (hb : ∀ k ∈ ks, 0 ≤ k ∧ k ≤ 4) : ks.length ≤ 5 := by
  have hsub : ks.toFinset ⊆ Finset.Icc (0 : ℤ) 4 := by
    intro k hk
    rw [List.mem_toFinset] at hk
    rw [Finset.mem_Icc]
    exact hb k hk
  have hcard := Finset.card_le_card hsub
  rw [List.toFinset_card_of_nodup hnd, Int.card_Icc] at hcard
  exact le_trans hcard (by norm_num)

/-- C2 (amended): for frames whose frequencies are at most the Nyquist limit,
the banded selector returns at most **5** candidates (band indices range over
the five values 0‥4, because `round` creates two half-width edge bands), at
most one per band index, each being the highest-power admissible sample of its
band (the maps record a committed admissible sample dominating every
admissible sample of the same band), sorted descending by frequency. -/
theorem C2_banded_selector (mapOrder : List ℤ) (freqs Pxx : List ℚ)
    (hnyq : ∀ f ∈ freqs, f ≤ 11025 / 2) :
    (getBandedCandidates mapOrder freqs Pxx).length ≤ 5 ∧
    List.Sorted freqGe (getBandedCandidates mapOrder freqs Pxx) ∧
    ∃ ks : List ℤ, ks.Nodup ∧ (∀ k ∈ ks, 0 ≤ k ∧ k ≤ 4) ∧
      (getBandedCandidates mapOrder freqs Pxx).Perm
        (ks.map fun k => ⟨fuzzyFreq ((bandState freqs Pxx).highPoints k),
          (bandState freqs Pxx).highScores k⟩) ∧
      (∀ k ∈ ks, ∃ x ∈ freqs.zip Pxx, admissible x ∧ freqBand x.1 = k ∧
        (bandState freqs Pxx).highPoints k = x.1 ∧
        (bandState freqs Pxx).highScores k = x.2) ∧
      ∀ x ∈ freqs.zip Pxx, admissible x →
        x.2 ≤ (bandState freqs Pxx).highScores (freqBand x.1) := by
  have hzip : ∀ x ∈ freqs.zip Pxx, x.1 ≤ 11025 / 2 :=
    fun x hx => hnyq x.1 (List.of_mem_zip hx).1
  have hkeysN : (bandState freqs Pxx).keys.Nodup := by
    unfold bandState
    exact bandFold_keys_nodup _ _ (List.nodup_nil)
  have hkeysB : ∀ k ∈ (bandState freqs Pxx).keys, 0 ≤ k ∧ k ≤ 4 := by
    unfold bandState
    refine bandFold_keys_bound _ _ hzip ?_
    intro k hk
    simp at hk
  have hksp := bandKeys_perm mapOrder freqs Pxx
  have hksN : (bandKeys mapOrder freqs Pxx).Nodup :=
    hksp.nodup_iff.mpr hkeysN
  have hksB : ∀ k ∈ bandKeys mapOrder freqs Pxx, 0 ≤ k ∧ k ≤ 4 :=
    fun k hk => hkeysB k (hksp.mem_iff.mp hk)
  refine ⟨?_, List.sorted_insertionSort freqGe _,
    bandKeys mapOrder freqs Pxx, hksN, hksB,
    List.perm_insertionSort freqGe _, ?_, ?_⟩
  · unfold getBandedCandidates
    rw [List.length_insertionSort, List.length_map]
    exact nodup_bounded_length_le_five hksN hksB
  · intro k hk
    have hkk : k ∈ (bandState freqs Pxx).keys := hksp.mem_iff.mp hk
    have h := bandFold_keys_from_sample (freqs.zip Pxx)
      ⟨fun _ => 0, fun _ => 0, []⟩ k (by
        unfold bandState at hkk
        exact hkk)
    rcases h with ⟨x, hx, hadm, hband, hpts, hscs⟩ | ⟨hks, _, _⟩
    · exact ⟨x, hx, hadm, hband, by unfold bandState; exact hpts,
        by unfold bandState; exact hscs⟩
    · exact absurd hks (List.not_mem_nil k)
  · intro x hx hadm
    unfold bandState
    exact bandFold_le_scores _ _ x hx hadm

/-- C2 counterexample: a frame with admissible samples at 100, 1000, 2500,
4000 and 5000 Hz (all below the Nyquist limit 5512.5 Hz) occupies five
distinct band indices (0, 1, 2, 3, 4) and the banded selector returns five
candidates — more than the 4 the claim allows. -/
theorem C2_banded_selector_counterexample :
    4 < (getBandedCandidates [] [100, 1000, 2500, 4000, 5000]
      [200, 200, 200, 200, 200]).length := by
  norm_num [getBandedCandidates, bandKeys, bandState, bandStep, freqBand,
    admissible, LOWER_POWER_CUTOFF, LOWER_FREQ_CUTOFF, goIntQ, fuzzyFreq,
    List.insertionSort, List.orderedInsert, List.nil_perm, freqGe]

/-- C2 witness: the amended bound instantiated on the five-band frame. -/
theorem C2_banded_selector_witness :
    (getBandedCandidates [] [100, 1000, 2500, 4000, 5000]
      [200, 200, 200, 200, 200]).length ≤ 5 ∧
    List.Sorted freqGe (getBandedCandidates [] [100, 1000, 2500, 4000, 5000]
      [200, 200, 200, 200, 200]) := by
  have h := C2_banded_selector [] [100, 1000, 2500, 4000, 5000]
    [200, 200, 200, 200, 200] (by norm_num)
  exact ⟨h.1, h.2.1⟩

/-! ### C8 — invalid configuration aborts -/

/-- C8: an unrecognised spectral-analyser selection makes the assembler panic
(`.error`), for any key-generation method and in the shipped `New`; with a
valid analyser, an unrecognised key-generation method also panics. No
fingerprint (and no degraded result) is returned in either case. -/
theorem C8_invalid_config_aborts (mapOrder : List ℤ)
    (pw ov : Buffer → ℤ → List ℚ × List ℚ) (sk : List ℚ → List ℕ)
    (m : String) (buf : Buffer) (rate a : ℤ) (vb : Bool) :
    (a ≠ SA_PWELCH → a ≠ SA_BESPOKE →
      newWithMethod mapOrder pw ov sk m buf rate a vb =
        .error ("Unrecognised spectral analyser") ∧
      New mapOrder pw ov sk buf rate a vb =
        .error ("Unrecognised spectral analyser")) ∧
    ((a = SA_PWELCH ∨ a = SA_BESPOKE) →
      m ≠ "transcribe" → m ≠ "topfreqs" → m ≠ "freqbands" →
      newWithMethod mapOrder pw ov sk m buf rate a vb =
        .error ("Fingerprint: Unknown key generaion method")) := by
  constructor
  · intro h1 h2
    constructor
    · unfold newWithMethod
      rw [if_neg h1, if_neg h2]
    · unfold New newWithMethod
      rw [if_neg h1, if_neg h2]
  · intro ha hm1 hm2 hm3
    rcases ha with rfl | rfl
    · rcases hp : pw buf rate with ⟨Pxx, freqs⟩
      simp [newWithMethod, hp, hm1, hm2, hm3]
    · rcases hp : ov buf rate with ⟨Pxx, freqs⟩
      simp [newWithMethod, SA_PWELCH, SA_BESPOKE, hp, hm1, hm2, hm3]

/-- C8 witness: analyser selector 7 aborts (also through `New`), and method
`"chroma"` under a valid analyser aborts. -/
theorem C8_invalid_config_aborts_witness :
    newWithMethod [] (fun _ _ => ([], [])) (fun _ _ => ([], [])) (fun _ => [])
      "chroma" ⟨0⟩ 11025 7 false =
      .error ("Unrecognised spectral analyser") ∧
    New [] (fun _ _ => ([], [])) (fun _ _ => ([], [])) (fun _ => [])
      ⟨0⟩ 11025 7 false = .error ("Unrecognised spectral analyser") ∧
    newWithMethod [] (fun _ _ => ([], [])) (fun _ _ => ([], [])) (fun _ => [])
      "chroma" ⟨0⟩ 11025 SA_PWELCH false =
      .error ("Fingerprint: Unknown key generaion method") := by
  have h1 := (C8_invalid_config_aborts [] (fun _ _ => ([], []))
    (fun _ _ => ([], [])) (fun _ => []) "chroma" ⟨0⟩ 11025 7 false).1
    (by decide) (by decide)
  have h2 := (C8_invalid_config_aborts [] (fun _ _ => ([], []))
    (fun _ _ => ([], [])) (fun _ => []) "chroma" ⟨0⟩ 11025 SA_PWELCH false).2
    (Or.inl rfl) (by decide) (by decide) (by decide)
  exact ⟨h1.1, h1.2, h2⟩

/-! ### C9 — determinism / idempotence of the full pipeline -/

/-- C9: the assembler is a pure function of the frame and configuration; in
particular the only run-to-run varying input — the map iteration order of the
banded selector, modelled by `mapOrder` — cannot influence the result of the
shipped pipeline, so re-running `New` on an identical frame with identical
configuration yields a bit-identical `Fingerprint` (key bytes, timestamp,
candidates and transcription alike). -/
theorem C9_pipeline_deterministic (o1 o2 : List ℤ)
    (pw ov : Buffer → ℤ → List ℚ × List ℚ) (sk : List ℚ → List ℕ)
    (buf : Buffer) (rate a : ℤ) (vb : Bool) :
    New o1 pw ov sk buf rate a vb = New o2 pw ov sk buf rate a vb := rfl

/-! ### C10 — the banded pipeline's minimum-candidate gate -/

/-- C10: on the banded pipeline (`optMethod = "freqbands"`, reachable through
the parametrised dispatch; the shipped `New` pins `optMethod` to
`"transcribe"`), a fingerprint is produced iff the banded selector yields at
least `REQUIRED_CANDIDATES` (4) candidates; with fewer, `New`'s body returns
no fingerprint even though the selector itself has no minimum-count failure. -/
theorem C10_banded_pipeline_minimum (mapOrder : List ℤ) (Pxx freqs : List ℚ)
    (ov : Buffer → ℤ → List ℚ × List ℚ) (sk : List ℚ → List ℕ)
    (buf : Buffer) (rate : ℤ) (vb : Bool) :
    (newWithMethod mapOrder (fun _ _ => (Pxx, freqs)) ov sk "freqbands" buf
        rate SA_PWELCH vb = .ok none ↔
      (getBandedCandidates mapOrder freqs Pxx).length < REQUIRED_CANDIDATES) ∧
    (REQUIRED_CANDIDATES ≤ (getBandedCandidates mapOrder freqs Pxx).length →
      newWithMethod mapOrder (fun _ _ => (Pxx, freqs)) ov sk "freqbands" buf
          rate SA_PWELCH vb =
        .ok (some
          { Key := sk ((getBandedCandidates mapOrder freqs Pxx).map
              candidate.Freq),
            Timestamp := buf.Timestamp,
            Candidates := getBandedCandidates mapOrder freqs Pxx,
            Transcription := none })) := by
  have hs1 : ("freqbands" : String) ≠ "transcribe" := by decide
  have hs2 : ("freqbands" : String) ≠ "topfreqs" := by decide
  constructor
  · by_cases hlt : (getBandedCandidates mapOrder freqs Pxx).length <
        REQUIRED_CANDIDATES
    · simp [newWithMethod, hs1, hs2, hlt]
    · simp [newWithMethod, hs1, hs2, hlt]
  · intro hge
    have hlt : ¬ (getBandedCandidates mapOrder freqs Pxx).length <
        REQUIRED_CANDIDATES := not_lt.mpr hge
    simp [newWithMethod, hs1, hs2, hlt]

/-- C10 witness: a five-band frame passes the gate and yields an assembled
fingerprint carrying the banded candidates and the frame's timestamp. -/
theorem C10_banded_pipeline_minimum_witness :
    newWithMethod [] (fun _ _ => ([200, 200, 200, 200, 200],
        [100, 1000, 2500, 4000, 5000])) (fun _ _ => ([], [])) (fun _ => [7])
      "freqbands" ⟨3⟩ 11025 SA_PWELCH false =
      .ok (some
        { Key := [7],
          Timestamp := 3,
          Candidates := getBandedCandidates [] [100, 1000, 2500, 4000, 5000]
            [200, 200, 200, 200, 200],
          Transcription := none }) := by
  have h := (C10_banded_pipeline_minimum [] [200, 200, 200, 200, 200]
    [100, 1000, 2500, 4000, 5000] (fun _ _ => ([], [])) (fun _ => [7])
    ⟨3⟩ 11025 false).2 (by
      norm_num [getBandedCandidates, bandKeys, bandState, bandStep, freqBand,
        admissible, LOWER_POWER_CUTOFF, LOWER_FREQ_CUTOFF, goIntQ, fuzzyFreq,
        List.insertionSort, List.orderedInsert, List.nil_perm, freqGe,
        REQUIRED_CANDIDATES])
  exact h

end Spectre
